import Mathlib

set_option maxHeartbeats 1000000
set_option maxRecDepth 100000

/- Shallow embedding of the ArchiveTool fixed-block archive engine
   (src/Archive.hpp, src/Archive.cpp).

   Modelling conventions:
   * The archive file is a list of 1024-byte blocks; `readBlock` models
     `BlockHandler::getAsBlock` with `StreamType::Archive` (a read past the end
     of the file fails, leaving the default-constructed `Block`, and the error
     state is cleared), `writeBlock` models `BlockHandler::writeToStream` with
     `StreamType::Archive` (a seek past the end of the file extends it with
     zero bytes, which parse as all-zero blocks).
   * Payload bytes are `Nat`s; machine `size_t` values are `Nat` with the
     `-1` initializers of `Header::Header()` written out as `2^64 - 1`.
   * `std::map<std::string, size_t>` is modelled as an association list with
     `insert`-if-absent semantics; its key ordering is irrelevant to the
     claims (only key sets and lookups are used).
   * File-system side conditions are made explicit: `add` takes the byte
     content the opened input file delivers, `extract` returns the byte
     sequence written to the output stream (before any reverse processing;
     all claims concern unprocessed files, for which these are the final
     output bytes).  `std::filesystem::path::parent_path` is modelled for
     relative multi-component paths, the only shape the claims exercise. -/

def kBlockSize : Nat := 1024

def kFileNameSize : Nat := 30

/-- sizeof(Header) on an LP64 platform: 3 * 8 bytes of size_t fields,
    2 bools, 5 bytes of processorType, 30 bytes of blockFileName = 61,
    padded to 64 by alignment of size_t. -/
def headerSize : Nat := 64

def payloadCapacity : Nat := kBlockSize - headerSize

def sizeTMax : Nat := 2 ^ 64 - 1

inductive ArchiveErrors
  | noError | fileNotFound | fileExists | fileOpenError | fileReadError | fileWriteError
  | fileCloseError | fileSeekError | fileTellError | fileError | badFilename | badPath
  | badData | badBlock | badArchive | badAction | badMode | badProcessor | badBlockType
  | badBlockCount | badBlockIndex | badBlockData | badBlockHash | badBlockNumber
  | badBlockLength | badBlockDataLength | badBlockTypeLength
  deriving DecidableEq, Repr

inductive StreamType
  | archive
  | nonArchive
  deriving DecidableEq, Repr

structure Header where
  blockIndex : Nat
  nextBlockIndex : Nat
  blockDataLen : Nat
  isEmpty : Bool
  isProcessed : Bool
  processorType : String
  blockFileName : String
  deriving DecidableEq, Repr

structure Block where
  header : Header
  data : List Nat
  deriving DecidableEq, Repr

/-- Header::Header(): blockIndex(-1), nextBlockIndex(-1), blockDataLen(0),
    isEmpty(false), isProcessed(false), names memset to NUL; the -1 values
    wrap to SIZE_MAX in the size_t fields. -/
def defaultHeader : Header :=
  { blockIndex := sizeTMax, nextBlockIndex := sizeTMax, blockDataLen := 0,
    isEmpty := false, isProcessed := false, processorType := "", blockFileName := "" }

/-- A default-constructed Block: Header::Header() plus an uninitialized data
    array (its bytes are never observed by any claim; zeros stand in). -/
def defaultBlock : Block :=
  { header := defaultHeader, data := List.replicate payloadCapacity 0 }

/-- A block parsed from a zero-filled region of the file (created when a
    write seeks past the current end of file): every field reads as zero. -/
def zeroHeader : Header :=
  { blockIndex := 0, nextBlockIndex := 0, blockDataLen := 0,
    isEmpty := false, isProcessed := false, processorType := "", blockFileName := "" }

def zeroBlock : Block :=
  { header := zeroHeader, data := List.replicate payloadCapacity 0 }

/-- size_t getStreamNumBlocks(std::fstream&, StreamType): file length divided
    by the (payload) block size, plus one, for both stream kinds. -/
def getStreamNumBlocks (fileLen : Nat) (t : StreamType) : Nat :=
  match t with
  | .archive => fileLen / kBlockSize + 1
  | .nonArchive => fileLen / (kBlockSize - headerSize) + 1

/-- BlockHandler::getAsBlock with StreamType::Archive: seek to i * kBlockSize
    and read one block; past the end of file the read fails and the
    default-constructed block is kept (the stream error is cleared). -/
def readBlock : List Block → Nat → Block
  | [], _ => defaultBlock
  | b :: _, 0 => b
  | _ :: bs, n + 1 => readBlock bs n

/-- BlockHandler::writeToStream with StreamType::Archive: seek to
    i * kBlockSize and write one full block; a seek past the end of file
    extends the file with zero bytes (all-zero blocks). -/
def writeBlock : List Block → Nat → Block → List Block
  | [], 0, b => [b]
  | [], n + 1, b => zeroBlock :: writeBlock [] n b
  | _ :: bs, 0, b => b :: bs
  | c :: bs, n + 1, b => c :: writeBlock bs n b

/- ---------- string helpers for path handling ---------- -/

def charsPrefix : List Char → List Char → Bool
  | [], _ => true
  | _ :: _, [] => false
  | a :: as, b :: bs => a == b && charsPrefix as bs

/-- std::string::find(pat) != npos: does the haystack contain the pattern as a
    contiguous substring (the empty pattern is always found)? -/
def charsContains : List Char → List Char → Bool
  | _, [] => true
  | [], _ :: _ => false
  | h :: hs, p :: ps => charsPrefix (p :: ps) (h :: hs) || charsContains hs (p :: ps)

def strContainsSub (hay pat : String) : Bool :=
  charsContains hay.toList pat.toList

def hasSlash : List Char → Bool
  | [] => false
  | c :: cs => c == '/' || hasSlash cs

/-- The characters strictly before the last slash:
    std::filesystem::path::parent_path for a relative multi-component path. -/
def parentChars : List Char → List Char
  | [] => []
  | c :: cs => if hasSlash cs then c :: parentChars cs else []

/-- The characters strictly after the last slash (the whole string when it
    has no slash): the basename of a relative path. -/
def baseChars : List Char → List Char
  | [] => []
  | c :: cs => if hasSlash cs then baseChars cs else if c == '/' then cs else c :: cs

def parentPath (p : String) : String :=
  (parentChars p.toList).asString

def basename (p : String) : String :=
  (baseChars p.toList).asString

/-- Archive::list name mangling: element.first.substr(parent_path size + 1),
    which drops one character past the parent prefix even when the name has
    no parent directory at all. -/
def stripParent (p : String) : String :=
  (p.toList.drop ((parentChars p.toList).length + 1)).asString

/-- Archive::Archive path fixup: append ".arc" when the path does not
    contain it. -/
def withArcSuffix (p : String) : String :=
  if strContainsSub p ".arc" then p else p ++ ".arc"

/- ---------- TOC ---------- -/

/-- TOC::mapTOC, a std::map<std::string, size_t>, as an association list. -/
abbrev TOC := List (String × Nat)

/-- mapTOC.find(k) != mapTOC.end(). -/
def tocContains : TOC → String → Bool
  | [], _ => false
  | e :: es, k => e.1 == k || tocContains es k

/-- std::map::insert: no effect when the key is already present. -/
def tocInsert (t : TOC) (k : String) (v : Nat) : TOC :=
  if tocContains t k then t else t ++ [(k, v)]

def tocLookup : TOC → String → Option Nat
  | [], _ => none
  | e :: es, k => if e.1 == k then some e.2 else tocLookup es k

/-- TOC::getBlockIndex uses mapTOC[k]: a missing key is default-inserted with
    value 0 and 0 is returned. -/
def tocGetBlockIndex (t : TOC) (k : String) : Nat × TOC :=
  match tocLookup t k with
  | some v => (v, t)
  | none => (0, t ++ [(k, 0)])

/-- std::map::erase(k). -/
def tocErase : TOC → String → TOC
  | [], _ => []
  | e :: es, k => if e.1 == k then tocErase es k else e :: tocErase es k

/- ---------- Archive state and operations ---------- -/

structure ArchiveState where
  blocks : List Block
  arcNumBlocks : Nat
  arcTOC : TOC
  arcFolder : String
  deriving DecidableEq, Repr

/-- Archive::Archive with AccessMode::AsNew (truncates): 0 blocks, empty TOC,
    arcFolder = parent_path of the (suffixed) archive path. -/
def createArchive (path : String) : ArchiveState :=
  { blocks := [], arcNumBlocks := 0, arcTOC := [],
    arcFolder := parentPath (withArcSuffix path) }

/-- Archive::reconstructTOC: scan blocks 0..numBlocks-1, inserting each
    non-empty block's (blockFileName, header.blockIndex); std::map::insert
    keeps the first entry per filename. -/
def reconstructTOC (blocks : List Block) (numBlocks : Nat) : TOC :=
  (List.range numBlocks).foldl
    (fun t i =>
      let b := readBlock blocks i
      if b.header.isEmpty then t
      else tocInsert t b.header.blockFileName b.header.blockIndex)
    []

/-- Archive::Archive with AccessMode::AsExisting on an archive file holding
    the given blocks: arcNumBlocks = getStreamNumBlocks(stream) - 1
    (file length / kBlockSize), then reconstructTOC. -/
def openArchive (path : String) (blocks : List Block) : ArchiveState :=
  let n := getStreamNumBlocks (blocks.length * kBlockSize) StreamType.archive - 1
  { blocks := blocks, arcNumBlocks := n,
    arcTOC := reconstructTOC blocks n,
    arcFolder := parentPath (withArcSuffix path) }

/-- The filename lookup normalization of Archive::extract / Archive::remove:
    prepend arcFolder + "/" when the name does not contain arcFolder. -/
def normalizeName (folder f : String) : String :=
  if strContainsSub f folder then f else folder ++ "/" ++ f

/-- BlockHandler::getEmptyBlocks: read blocks 0..arcNumBlocks-1 and collect
    those whose header says isEmpty. -/
def getEmptyBlocks (s : ArchiveState) : List Block :=
  ((List.range s.arcNumBlocks).map (readBlock s.blocks)).filter
    (fun b => b.header.isEmpty)

/-- The block Archive::add writes for chunk i of n, at archive position pos:
    header fields set in the loop body, then getAsBlock with
    StreamType::NonArchive memsets the payload and reads up to
    payloadCapacity bytes from the input stream (sequential, so chunk i is
    content[i*cap .. i*cap+cap)), setting blockDataLen to the byte count and
    isEmpty to false. -/
def chunkBlock (f : String) (content : List Nat) (p : Bool) (pos n i : Nat) : Block :=
  let chunk := (content.drop (i * payloadCapacity)).take payloadCapacity
  { header :=
      { blockIndex := pos,
        nextBlockIndex := if i < n - 1 then pos + 1 else pos,
        blockDataLen := chunk.length,
        isEmpty := false,
        isProcessed := p,
        processorType := if p then "comp" else "",
        blockFileName := f },
    data := chunk ++ List.replicate (payloadCapacity - chunk.length) 0 }

/-- The for-loop of Archive::add: for each chunk, thePos := arcNumBlocks,
    build and write the block at thePos, arcNumBlocks++, and
    TOC::addBlockMeta(aFilename, thePos) (a std::map::insert, so only the
    first chunk's entry sticks).  The first argument counts the remaining
    iterations (n - i for loop counter i), so `addLoop f c p n n 0 ...` runs
    the loop for i = 0 .. n-1. -/
def addLoop (f : String) (content : List Nat) (p : Bool) (n : Nat) :
    Nat → Nat → List Block → Nat → TOC → List Block × Nat × TOC
  | 0, _, blocks, num, t => (blocks, num, t)
  | k + 1, i, blocks, num, t =>
    addLoop f content p n k (i + 1)
      (writeBlock blocks num (chunkBlock f content p num n i))
      (num + 1)
      (tocInsert t f num)

/-- Archive::add (aProcessor modelled by the flag p; content is the byte
    sequence the ingestion stream delivers, i.e. the processed file's bytes
    when p is set).  Fails with fileExists when the raw filename is already a
    TOC key; otherwise computes numBlocksNeeded with StreamType::NonArchive,
    gathers the empty blocks (unused), runs the chunk loop and returns true. -/
def add (s : ArchiveState) (f : String) (content : List Nat) (p : Bool) :
    ArchiveState × Except ArchiveErrors Bool :=
  if tocContains s.arcTOC f then (s, Except.error ArchiveErrors.fileExists)
  else
    let n := getStreamNumBlocks content.length StreamType.nonArchive
    let _emptyBlocks := getEmptyBlocks s
    let r := addLoop f content p n n 0 s.blocks s.arcNumBlocks s.arcTOC
    ({ s with blocks := r.1, arcNumBlocks := r.2.1, arcTOC := r.2.2 },
     Except.ok true)

/-- The while-loop of Archive::extract: read the block at idx, append its
    valid payload bytes (writeToStream with StreamType::NonArchive writes
    blockDataLen bytes) to the output, stop when nextBlockIndex equals
    blockIndex, else follow nextBlockIndex.  Fuel bounds the walk; the C++
    loop not terminating corresponds to running out of fuel. -/
def extractGo (blocks : List Block) : Nat → Nat → List Nat → Option (List Nat)
  | 0, _, _ => none
  | fuel + 1, idx, acc =>
    let b := readBlock blocks idx
    let acc2 := acc ++ b.data.take b.header.blockDataLen
    if b.header.nextBlockIndex == b.header.blockIndex then some acc2
    else extractGo blocks fuel b.header.nextBlockIndex acc2

/-- Archive::extract: normalize the name against arcFolder, resolve it with
    TOC::getBlockIndex (operator[], which default-inserts 0 for unknown
    names), then walk the chain.  Returns the bytes written to the output
    stream; the reverse-processing step for processed chains only renames
    temporary files and inverts the payload transform, which no claim
    exercises. -/
def extract (s : ArchiveState) (f : String) (fuel : Nat) :
    ArchiveState × Option (List Nat) :=
  let key := normalizeName s.arcFolder f
  let r := tocGetBlockIndex s.arcTOC key
  ({ s with arcTOC := r.2 }, extractGo s.blocks fuel r.1 [])

/-- The tombstoning of one block in Archive::remove: isEmpty = true,
    blockDataLen = 0, every other field (including blockFileName, the memset
    is commented out) left as read. -/
def tombstone (b : Block) : Block :=
  { b with header := { b.header with isEmpty := true, blockDataLen := 0 } }

/-- The while-loop of Archive::remove: read the block at idx, write it back
    tombstoned at idx, stop when the read header's nextBlockIndex equals its
    blockIndex, else follow nextBlockIndex (the final assignment to the
    local block's nextBlockIndex is dead code).  Fuel bounds the walk. -/
def removeGo (blocks : List Block) : Nat → Nat → Option (List Block)
  | 0, _ => none
  | fuel + 1, idx =>
    if (readBlock blocks idx).header.nextBlockIndex
        == (readBlock blocks idx).header.blockIndex then
      some (writeBlock blocks idx (tombstone (readBlock blocks idx)))
    else
      removeGo (writeBlock blocks idx (tombstone (readBlock blocks idx))) fuel
        (readBlock blocks idx).header.nextBlockIndex

/-- Archive::remove: normalize the name, resolve it with TOC::getBlockIndex
    (operator[] default-insert), walk the chain tombstoning, then erase the
    normalized key from the TOC. -/
def remove (s : ArchiveState) (f : String) (fuel : Nat) : Option ArchiveState :=
  match removeGo s.blocks fuel
      (tocGetBlockIndex s.arcTOC (normalizeName s.arcFolder f)).1 with
  | none => none
  | some blocks2 =>
    some
      { s with
        blocks := blocks2
        arcTOC := tocErase (tocGetBlockIndex s.arcTOC (normalizeName s.arcFolder f)).2 (normalizeName s.arcFolder f) }

/-- Archive::list output lines (before the two "#" markers): for each TOC
    entry, the key with parent_path().size() + 1 leading characters dropped. -/
def listNames (s : ArchiveState) : List String :=
  s.arcTOC.map (fun e => stripParent e.1)

/-- Archive::debugDump: for each of fileLen / kBlockSize block positions,
    the stored blockIndex, isEmpty flag and mangled filename. -/
def debugDump (s : ArchiveState) : List (Nat × Bool × String) :=
  (List.range (getStreamNumBlocks (s.blocks.length * kBlockSize) StreamType.archive - 1)).map
    (fun i =>
      let b := readBlock s.blocks i
      (b.header.blockIndex, b.header.isEmpty, stripParent b.header.blockFileName))

/-- Archive::compact.  The loop bound is getStreamNumBlocks (WITHOUT the
    usual -1), so it also visits the position one past the end of the file,
    whose failed read leaves a default-constructed block with isEmpty =
    false, which is counted (and written) as a survivor.  The survivor
    writes go through writeToStream with StreamType::Archive, i.e. into
    arcFileStream itself (in place); after the loop the archive path is
    reopened with std::fstream::trunc, truncating the file to zero bytes.
    Net effect: the on-disk archive is emptied, arcNumBlocks and the TOC are
    left stale, and the returned count is the number of non-empty blocks
    plus one for the phantom past-the-end block. -/
def compact (s : ArchiveState) : ArchiveState × Nat :=
  let numBlocksArc := getStreamNumBlocks (s.blocks.length * kBlockSize) StreamType.archive
  let ix := ((List.range numBlocksArc).filter
    (fun i => !(readBlock s.blocks i).header.isEmpty)).length
  ({ s with blocks := [] }, ix)

/- ---------- derived notions used by the claims ---------- -/

/-- Modelled from the spec: numChunks = max(1, ceil(sourceSize /
    payloadCapacity)) — the allocation count C5 asserts (spec section 4.4
    step 3 and the section 8 boundary behaviors). -/
def specNumChunks (sourceSize cap : Nat) : Nat :=
  max 1 ((sourceSize + cap - 1) / cap)

/-- The filenames of the non-empty blocks of an archive file. -/
def nonEmptyNames (blocks : List Block) : List String :=
  ((List.range blocks.length).filter
    (fun i => !(readBlock blocks i).header.isEmpty)).map
    (fun i => (readBlock blocks i).header.blockFileName)

/-- A well-formed chain of block positions: each listed position holds a
    block whose stored blockIndex is the position itself, each non-last
    block's nextBlockIndex is the following position, the last block is a
    self-loop, and every position is inside the file. -/
def chainListOK (blocks : List Block) : List Nat → Bool
  | [] => false
  | [a] =>
    (readBlock blocks a).header.blockIndex == a &&
    (readBlock blocks a).header.nextBlockIndex == a &&
    a < blocks.length
  | a :: b :: rest =>
    (readBlock blocks a).header.blockIndex == a &&
    (readBlock blocks a).header.nextBlockIndex == b &&
    a < blocks.length &&
    chainListOK blocks (b :: rest)

/-- The result of tombstoning every listed position in order. -/
def tombAll (blocks : List Block) : List Nat → List Block
  | [] => blocks
  | i :: is => tombAll (writeBlock blocks i (tombstone (readBlock blocks i))) is

/-- Archive states reachable by a sequence of successful operations starting
    from createArchive (the operation set of claim C2). -/
inductive Reachable : ArchiveState → Prop
  | create (p : String) : Reachable (createArchive p)
  | stepAdd (s : ArchiveState) (f : String) (c : List Nat) (p : Bool)
      (h : Reachable s) (hok : (add s f c p).2 = Except.ok true) :
      Reachable (add s f c p).1
  | stepExtract (s : ArchiveState) (f : String) (fuel : Nat)
      (h : Reachable s) (hok : (extract s f fuel).2.isSome = true) :
      Reachable (extract s f fuel).1
  | stepRemove (s s2 : ArchiveState) (f : String) (fuel : Nat)
      (h : Reachable s) (hok : remove s f fuel = some s2) :
      Reachable s2
  | stepCompact (s : ArchiveState) (h : Reachable s) :
      Reachable (compact s).1

/- ---------- block array lemmas ---------- -/

theorem readBlock_nil (i : Nat) : readBlock [] i = defaultBlock := by
  cases i <;> rfl

theorem readBlock_past (B : List Block) (i : Nat) (h : B.length ≤ i) :
    readBlock B i = defaultBlock := by
  induction B generalizing i with
  | nil => exact readBlock_nil i
  | cons c bs ih =>
    cases i with
    | zero => simp at h
    | succ n => simpa [readBlock] using ih n (by simpa using h)

theorem length_writeBlock (B : List Block) (i : Nat) (b : Block) :
    (writeBlock B i b).length = max B.length (i + 1) := by
  induction B generalizing i with
  | nil =>
    induction i with
    | zero => simp [writeBlock]
    | succ n ih => simp [writeBlock] at ih ⊢; omega
  | cons c bs ih =>
    cases i with
    | zero => simp [writeBlock]
    | succ n => simp [writeBlock, ih]; omega

theorem readBlock_writeBlock_self (B : List Block) (i : Nat) (b : Block) :
    readBlock (writeBlock B i b) i = b := by
  induction B generalizing i with
  | nil =>
    induction i with
    | zero => rfl
    | succ n ih => simpa [writeBlock, readBlock] using ih
  | cons c bs ih =>
    cases i with
    | zero => rfl
    | succ n => simpa [writeBlock, readBlock] using ih n

theorem readBlock_writeBlock_lt (B : List Block) (i : Nat) (b : Block) (j : Nat)
    (hj : j < B.length) (hne : j ≠ i) :
    readBlock (writeBlock B i b) j = readBlock B j := by
  induction B generalizing i j with
  | nil => simp at hj
  | cons c bs ih =>
    cases i with
    | zero =>
      cases j with
      | zero => exact absurd rfl hne
      | succ m => rfl
    | succ n =>
      cases j with
      | zero => rfl
      | succ m =>
        simpa [writeBlock, readBlock] using
          ih n m (by simpa using hj) (by omega)

theorem readBlock_writeBlock_gap (B : List Block) (i : Nat) (b : Block) (j : Nat)
    (h1 : B.length ≤ j) (h2 : j < i) :
    readBlock (writeBlock B i b) j = zeroBlock := by
  induction B generalizing i j with
  | nil =>
    induction i generalizing j with
    | zero => omega
    | succ n ih =>
      cases j with
      | zero => rfl
      | succ m => simpa [writeBlock, readBlock] using ih m (by simp) (by omega)
  | cons c bs ih =>
    cases i with
    | zero => omega
    | succ n =>
      cases j with
      | zero => simp at h1
      | succ m =>
        simpa [writeBlock, readBlock] using ih n m (by simpa using h1) (by omega)

/- ---------- TOC lemmas ---------- -/

theorem tocContains_append (t1 t2 : TOC) (k : String) :
    tocContains (t1 ++ t2) k = (tocContains t1 k || tocContains t2 k) := by
  induction t1 with
  | nil => simp [tocContains]
  | cons e es ih => simp [tocContains, ih, Bool.or_assoc]

theorem tocContains_tocInsert_self (t : TOC) (k : String) (v : Nat) :
    tocContains (tocInsert t k v) k = true := by
  unfold tocInsert
  by_cases h : tocContains t k
  · simp [h]
  · rw [if_neg (by simp [h]), tocContains_append]
    simp [tocContains]

theorem tocInsert_of_contains (t : TOC) (k : String) (v : Nat)
    (h : tocContains t k = true) : tocInsert t k v = t := by
  simp [tocInsert, h]

theorem tocInsert_of_not_contains (t : TOC) (k : String) (v : Nat)
    (h : tocContains t k = false) : tocInsert t k v = t ++ [(k, v)] := by
  simp [tocInsert, h]

theorem tocLookup_of_not_contains (t : TOC) (k : String)
    (h : tocContains t k = false) : tocLookup t k = none := by
  induction t with
  | nil => rfl
  | cons e es ih =>
    rw [tocContains] at h
    rcases Bool.or_eq_false_iff.mp h with ⟨h1, h2⟩
    rw [tocLookup, if_neg (by simp [h1])]
    exact ih h2

theorem tocLookup_append (t1 t2 : TOC) (k : String)
    (h : tocContains t1 k = false) :
    tocLookup (t1 ++ t2) k = tocLookup t2 k := by
  induction t1 with
  | nil => rfl
  | cons e es ih =>
    rw [tocContains] at h
    rcases Bool.or_eq_false_iff.mp h with ⟨h1, h2⟩
    rw [List.cons_append, tocLookup, if_neg (by simp [h1])]
    exact ih h2

theorem tocLookup_cons_self (k : String) (v : Nat) (t : TOC) :
    tocLookup ((k, v) :: t) k = some v := by
  simp [tocLookup]

theorem tocContains_erase_self (t : TOC) (k : String) :
    tocContains (tocErase t k) k = false := by
  induction t with
  | nil => rfl
  | cons e es ih =>
    by_cases h : e.1 == k
    · simpa [tocErase, h] using ih
    · simpa [tocErase, h, tocContains] using ih

theorem tocGetBlockIndex_of_lookup (t : TOC) (k : String) (v : Nat)
    (h : tocLookup t k = some v) : tocGetBlockIndex t k = (v, t) := by
  simp [tocGetBlockIndex, h]

theorem tocErase_append (t1 t2 : TOC) (k : String) :
    tocErase (t1 ++ t2) k = tocErase t1 k ++ tocErase t2 k := by
  induction t1 with
  | nil => rfl
  | cons e es ih =>
    by_cases h : e.1 == k
    · simp [tocErase, h, ih]
    · simp [tocErase, h, ih]

theorem tocErase_of_not_contains (t : TOC) (k : String)
    (h : tocContains t k = false) : tocErase t k = t := by
  induction t with
  | nil => rfl
  | cons e es ih =>
    rw [tocContains] at h
    rcases Bool.or_eq_false_iff.mp h with ⟨h1, h2⟩
    rw [tocErase, if_neg (by simp [h1]), ih h2]

/- ---------- addLoop characterization ---------- -/

theorem addLoop_num (f : String) (c : List Nat) (p : Bool) (n : Nat) :
    ∀ (k i : Nat) (B : List Block) (num : Nat) (t : TOC),
      (addLoop f c p n k i B num t).2.1 = num + k := by
  intro k
  induction k with
  | zero => intro i B num t; rfl
  | succ m ih =>
    intro i B num t
    rw [addLoop, ih]
    omega

theorem addLoop_toc_contains (f : String) (c : List Nat) (p : Bool) (n : Nat) :
    ∀ (k i : Nat) (B : List Block) (num : Nat) (t : TOC),
      tocContains t f = true → (addLoop f c p n k i B num t).2.2 = t := by
  intro k
  induction k with
  | zero => intro i B num t _; rfl
  | succ m ih =>
    intro i B num t h
    rw [addLoop, tocInsert_of_contains t f num h]
    exact ih (i + 1) _ (num + 1) t h

theorem addLoop_toc (f : String) (c : List Nat) (p : Bool) (n : Nat)
    (k i : Nat) (B : List Block) (num : Nat) (t : TOC)
    (h : tocContains t f = false) (hk : 0 < k) :
    (addLoop f c p n k i B num t).2.2 = t ++ [(f, num)] := by
  cases k with
  | zero => omega
  | succ m =>
    rw [addLoop, tocInsert_of_not_contains t f num h]
    exact addLoop_toc_contains f c p n m (i + 1) _ (num + 1) _
      (by rw [tocContains_append]; simp [tocContains])

theorem addLoop_length (f : String) (c : List Nat) (p : Bool) (n : Nat) :
    ∀ (k i : Nat) (B : List Block) (num : Nat) (t : TOC), 0 < k →
      (addLoop f c p n k i B num t).1.length = max B.length (num + k) := by
  intro k
  induction k with
  | zero => omega
  | succ m ih =>
    intro i B num t _
    rw [addLoop]
    cases Nat.eq_zero_or_pos m with
    | inl h0 =>
      subst h0
      show (writeBlock B num (chunkBlock f c p num n i)).length = _
      rw [length_writeBlock]
    | inr hm =>
      rw [ih (i + 1) _ (num + 1) _ hm, length_writeBlock]
      omega

theorem addLoop_read_lo (f : String) (c : List Nat) (p : Bool) (n : Nat) :
    ∀ (k i : Nat) (B : List Block) (num : Nat) (t : TOC) (j : Nat),
      j < B.length → j < num →
      readBlock (addLoop f c p n k i B num t).1 j = readBlock B j := by
  intro k
  induction k with
  | zero => intro i B num t j _ _; rfl
  | succ m ih =>
    intro i B num t j hj1 hj2
    rw [addLoop]
    rw [ih (i + 1) _ (num + 1) _ j
      (by rw [length_writeBlock]; omega) (by omega)]
    exact readBlock_writeBlock_lt B num _ j hj1 (by omega)

theorem addLoop_read_gap (f : String) (c : List Nat) (p : Bool) (n : Nat)
    (k i : Nat) (B : List Block) (num : Nat) (t : TOC) (j : Nat)
    (hj1 : B.length ≤ j) (hj2 : j < num) (hk : 0 < k) :
    readBlock (addLoop f c p n k i B num t).1 j = zeroBlock := by
  cases k with
  | zero => omega
  | succ m =>
    rw [addLoop]
    rw [addLoop_read_lo f c p n m (i + 1) _ (num + 1) _ j
      (by rw [length_writeBlock]; omega) (by omega)]
    exact readBlock_writeBlock_gap B num _ j hj1 hj2

theorem addLoop_read_chunk (f : String) (c : List Nat) (p : Bool) (n : Nat) :
    ∀ (k i : Nat) (B : List Block) (num : Nat) (t : TOC) (j : Nat),
      j < k →
      readBlock (addLoop f c p n k i B num t).1 (num + j)
        = chunkBlock f c p (num + j) n (i + j) := by
  intro k
  induction k with
  | zero => omega
  | succ m ih =>
    intro i B num t j hj
    rw [addLoop]
    cases j with
    | zero =>
      have hlo := addLoop_read_lo f c p n m (i + 1)
        (writeBlock B num (chunkBlock f c p num n i)) (num + 1)
        (tocInsert t f num) num
        (by rw [length_writeBlock]; omega) (by omega)
      simp only [Nat.add_zero]
      rw [hlo]
      exact readBlock_writeBlock_self B num _
    | succ j2 =>
      have := ih (i + 1) (writeBlock B num (chunkBlock f c p num n i))
        (num + 1) (tocInsert t f num) j2 (by omega)
      rw [show num + (j2 + 1) = num + 1 + j2 by omega,
          show i + (j2 + 1) = i + 1 + j2 by omega]
      exact this

theorem addLoop_read_hi (f : String) (c : List Nat) (p : Bool) (n : Nat) :
    ∀ (k i : Nat) (B : List Block) (num : Nat) (t : TOC) (j : Nat),
      num + k ≤ j → j < B.length →
      readBlock (addLoop f c p n k i B num t).1 j = readBlock B j := by
  intro k
  induction k with
  | zero => intro i B num t j _ _; rfl
  | succ m ih =>
    intro i B num t j hj1 hj2
    rw [addLoop]
    rw [ih (i + 1) _ (num + 1) _ j (by omega)
      (by rw [length_writeBlock]; omega)]
    exact readBlock_writeBlock_lt B num _ j hj2 (by omega)

/- ---------- add characterization ---------- -/

theorem numBlocksNeeded_pos (L : Nat) :
    0 < getStreamNumBlocks L StreamType.nonArchive := by
  simp [getStreamNumBlocks]

theorem add_ok (s : ArchiveState) (f : String) (c : List Nat) (p : Bool)
    (h : tocContains s.arcTOC f = false) :
    (add s f c p).2 = Except.ok true := by
  simp [add, h]

theorem add_folder (s : ArchiveState) (f : String) (c : List Nat) (p : Bool) :
    (add s f c p).1.arcFolder = s.arcFolder := by
  by_cases h : tocContains s.arcTOC f <;> simp [add, h]

theorem add_blocks (s : ArchiveState) (f : String) (c : List Nat) (p : Bool)
    (h : tocContains s.arcTOC f = false) :
    (add s f c p).1.blocks
      = (addLoop f c p (getStreamNumBlocks c.length StreamType.nonArchive)
          (getStreamNumBlocks c.length StreamType.nonArchive) 0
          s.blocks s.arcNumBlocks s.arcTOC).1 := by
  simp [add, h]

theorem add_num (s : ArchiveState) (f : String) (c : List Nat) (p : Bool)
    (h : tocContains s.arcTOC f = false) :
    (add s f c p).1.arcNumBlocks
      = s.arcNumBlocks + getStreamNumBlocks c.length StreamType.nonArchive := by
  simp [add, h, addLoop_num]

theorem add_toc (s : ArchiveState) (f : String) (c : List Nat) (p : Bool)
    (h : tocContains s.arcTOC f = false) :
    (add s f c p).1.arcTOC = s.arcTOC ++ [(f, s.arcNumBlocks)] := by
  simp only [add, h, Bool.false_eq_true, if_false]
  exact addLoop_toc f c p _ _ 0 s.blocks s.arcNumBlocks s.arcTOC h
    (numBlocksNeeded_pos c.length)

theorem add_length (s : ArchiveState) (f : String) (c : List Nat) (p : Bool)
    (h : tocContains s.arcTOC f = false) :
    (add s f c p).1.blocks.length
      = max s.blocks.length
          (s.arcNumBlocks + getStreamNumBlocks c.length StreamType.nonArchive) := by
  rw [add_blocks s f c p h]
  exact addLoop_length f c p _ _ 0 s.blocks s.arcNumBlocks s.arcTOC
    (numBlocksNeeded_pos c.length)

theorem add_read_chunk (s : ArchiveState) (f : String) (c : List Nat) (p : Bool)
    (h : tocContains s.arcTOC f = false) (j : Nat)
    (hj : j < getStreamNumBlocks c.length StreamType.nonArchive) :
    readBlock (add s f c p).1.blocks (s.arcNumBlocks + j)
      = chunkBlock f c p (s.arcNumBlocks + j)
          (getStreamNumBlocks c.length StreamType.nonArchive) j := by
  rw [add_blocks s f c p h]
  have := addLoop_read_chunk f c p (getStreamNumBlocks c.length StreamType.nonArchive)
    (getStreamNumBlocks c.length StreamType.nonArchive) 0 s.blocks s.arcNumBlocks
    s.arcTOC j hj
  simpa using this

theorem add_read_lo (s : ArchiveState) (f : String) (c : List Nat) (p : Bool)
    (h : tocContains s.arcTOC f = false) (j : Nat)
    (hj1 : j < s.blocks.length) (hj2 : j < s.arcNumBlocks) :
    readBlock (add s f c p).1.blocks j = readBlock s.blocks j := by
  rw [add_blocks s f c p h]
  exact addLoop_read_lo f c p _ _ 0 s.blocks s.arcNumBlocks s.arcTOC j hj1 hj2

theorem add_read_gap (s : ArchiveState) (f : String) (c : List Nat) (p : Bool)
    (h : tocContains s.arcTOC f = false) (j : Nat)
    (hj1 : s.blocks.length ≤ j) (hj2 : j < s.arcNumBlocks) :
    readBlock (add s f c p).1.blocks j = zeroBlock := by
  rw [add_blocks s f c p h]
  exact addLoop_read_gap f c p _ _ 0 s.blocks s.arcNumBlocks s.arcTOC j hj1 hj2
    (numBlocksNeeded_pos c.length)

theorem add_read_hi (s : ArchiveState) (f : String) (c : List Nat) (p : Bool)
    (h : tocContains s.arcTOC f = false) (j : Nat)
    (hj1 : s.arcNumBlocks + getStreamNumBlocks c.length StreamType.nonArchive ≤ j)
    (hj2 : j < s.blocks.length) :
    readBlock (add s f c p).1.blocks j = readBlock s.blocks j := by
  rw [add_blocks s f c p h]
  exact addLoop_read_hi f c p _ _ 0 s.blocks s.arcNumBlocks s.arcTOC j hj1 hj2

/- ---------- extract characterization ---------- -/

theorem extract_blocks (s : ArchiveState) (f : String) (fuel : Nat) :
    (extract s f fuel).1.blocks = s.blocks := rfl

theorem extract_num (s : ArchiveState) (f : String) (fuel : Nat) :
    (extract s f fuel).1.arcNumBlocks = s.arcNumBlocks := rfl

theorem extract_folder (s : ArchiveState) (f : String) (fuel : Nat) :
    (extract s f fuel).1.arcFolder = s.arcFolder := rfl

theorem payloadCapacity_pos : 0 < payloadCapacity := by decide

theorem take_len_append (l r : List Nat) : (l ++ r).take l.length = l := by
  induction l with
  | nil => rfl
  | cons a as ih => simp [ih]

/-- The valid payload bytes of an add-written chunk block are exactly the
    chunk of the content it was built from. -/
theorem chunkBlock_payload (f : String) (c : List Nat) (p : Bool) (pos n m : Nat) :
    (chunkBlock f c p pos n m).data.take (chunkBlock f c p pos n m).header.blockDataLen
      = (c.drop (m * payloadCapacity)).take payloadCapacity := by
  show (((c.drop (m * payloadCapacity)).take payloadCapacity)
      ++ List.replicate _ 0).take
      ((c.drop (m * payloadCapacity)).take payloadCapacity).length = _
  exact take_len_append _ _

/-- Chunks written by add concatenate back to the original content: walking
    the chain from chunk m onwards with fuel n - m yields the rest of the
    content. -/
theorem extractGo_chunks (B : List Block) (f : String) (c : List Nat) (p : Bool)
    (start n : Nat) (hn : n = getStreamNumBlocks c.length StreamType.nonArchive)
    (hread : ∀ j, j < n → readBlock B (start + j) = chunkBlock f c p (start + j) n j) :
    ∀ (r m : Nat) (acc : List Nat), m + r = n → 0 < r →
      extractGo B r (start + m) acc = some (acc ++ c.drop (m * payloadCapacity)) := by
  intro r
  induction r with
  | zero => omega
  | succ r2 ih =>
    intro m acc hmr _
    rw [extractGo]
    rw [hread m (by omega)]
    show (if (chunkBlock f c p (start + m) n m).header.nextBlockIndex
        == (chunkBlock f c p (start + m) n m).header.blockIndex then _ else _) = _
    cases Nat.eq_zero_or_pos r2 with
    | inl hr2 =>
      have hm : ¬ m < n - 1 := by omega
      rw [if_pos (by simp [chunkBlock, hm])]
      have hlen : (c.drop (m * payloadCapacity)).length ≤ payloadCapacity := by
        have h1 : n = c.length / payloadCapacity + 1 := by
          simpa [getStreamNumBlocks, payloadCapacity] using hn
        have h2 : m = c.length / payloadCapacity := by omega
        have h3 := Nat.mod_lt c.length (payloadCapacity_pos)
        have h4 := Nat.div_add_mod c.length payloadCapacity
        rw [List.length_drop, h2, Nat.mul_comm]
        omega
      rw [chunkBlock_payload, List.take_of_length_le hlen]
    | inr hr2 =>
      have hm : m < n - 1 := by omega
      rw [if_neg (by simp [chunkBlock, hm])]
      show extractGo B r2 (chunkBlock f c p (start + m) n m).header.nextBlockIndex _ = _
      have hnext : (chunkBlock f c p (start + m) n m).header.nextBlockIndex
          = start + (m + 1) := by simp [chunkBlock, hm]; omega
      rw [hnext]
      have := ih (m + 1) (acc ++ (chunkBlock f c p (start + m) n m).data.take
        (chunkBlock f c p (start + m) n m).header.blockDataLen) (by omega) hr2
      rw [this]
      congr 1
      rw [List.append_assoc]
      congr 1
      rw [chunkBlock_payload]
      rw [show (m + 1) * payloadCapacity = m * payloadCapacity + payloadCapacity by ring]
      rw [← List.drop_drop]
      exact List.take_append_drop _ _

/- ---------- path helper lemmas ---------- -/

theorem normalizeName_of_contains (folder f : String)
    (h : strContainsSub f folder = true) : normalizeName folder f = f := by
  simp [normalizeName, h]

theorem parent_base_split (cs : List Char) (h : hasSlash cs = true) :
    cs = parentChars cs ++ '/' :: baseChars cs := by
  induction cs with
  | nil => simp [hasSlash] at h
  | cons c cs2 ih =>
    by_cases h2 : hasSlash cs2
    · rw [parentChars, if_pos h2, baseChars, if_pos h2, List.cons_append]
      exact congrArg (c :: ·) (ih h2)
    · have hslash : (c == '/') = true := by
        rw [hasSlash] at h
        rcases Bool.or_eq_true_iff.mp h with h3 | h3
        · exact h3
        · exact absurd h3 h2
      rw [parentChars, if_neg (by simp [h2]), baseChars, if_neg (by simp [h2]),
        if_pos hslash, List.nil_append]
      have : c = '/' := by simpa using hslash
      rw [this]

theorem drop_parentChars (cs : List Char) (h : hasSlash cs = true) :
    cs.drop ((parentChars cs).length + 1) = baseChars cs := by
  have key : ∀ (P b : List Char), cs = P ++ '/' :: b → cs.drop (P.length + 1) = b := by
    intro P b he
    rw [he, show P.length + 1 = (P ++ ['/']).length by simp,
      show P ++ '/' :: b = (P ++ ['/']) ++ b by simp]
    exact List.drop_left _ _
  exact key _ _ (parent_base_split cs h)

theorem stripParent_eq_basename (s : String) (h : hasSlash s.toList = true) :
    stripParent s = basename s := by
  unfold stripParent basename
  rw [drop_parentChars s.toList h]

/- ---------- chain walking and remove characterization ---------- -/

theorem chainListOK_mem_lt (B : List Block) :
    ∀ (is : List Nat), chainListOK B is = true → ∀ a, a ∈ is → a < B.length := by
  intro is
  induction is with
  | nil => intro h; simp [chainListOK] at h
  | cons x rest ih =>
    intro h a ha
    cases rest with
    | nil =>
      simp [chainListOK] at h
      obtain ⟨⟨h1, h2⟩, h3⟩ := h
      rcases List.mem_singleton.mp ha with rfl
      exact h3
    | cons y rest2 =>
      simp [chainListOK] at h
      obtain ⟨⟨⟨h1, h2⟩, h3⟩, h4⟩ := h
      rcases List.mem_cons.mp ha with rfl | ha2
      · exact h3
      · exact ih h4 a ha2

theorem chainListOK_write_notmem (B : List Block) (idx : Nat) (b : Block) :
    ∀ (is : List Nat), idx ∉ is → chainListOK B is = true →
      chainListOK (writeBlock B idx b) is = true := by
  intro is
  induction is with
  | nil => intro _ h; simp [chainListOK] at h
  | cons x rest ih =>
    intro hnm h
    have hx : x ≠ idx := fun he => hnm (he ▸ List.mem_cons_self x rest)
    cases rest with
    | nil =>
      simp [chainListOK] at h
      obtain ⟨⟨h1, h2⟩, h3⟩ := h
      have hr := readBlock_writeBlock_lt B idx b x h3 hx
      simp [chainListOK, hr, h1, h2]
      rw [length_writeBlock]
      omega
    | cons y rest2 =>
      simp [chainListOK] at h
      obtain ⟨⟨⟨h1, h2⟩, h3⟩, h4⟩ := h
      have hr := readBlock_writeBlock_lt B idx b x h3 hx
      have hrest := ih (fun hm => hnm (List.mem_cons_of_mem x hm)) h4
      simp [chainListOK, hr, h1, h2, hrest]
      rw [length_writeBlock]
      omega

theorem tombAll_length (B : List Block) :
    ∀ (is : List Nat), (∀ a ∈ is, a < B.length) → (tombAll B is).length = B.length := by
  intro is
  induction is generalizing B with
  | nil => intro _; rfl
  | cons x rest ih =>
    intro hlt
    rw [tombAll]
    rw [ih (writeBlock B x (tombstone (readBlock B x)))
      (fun a ha => by rw [length_writeBlock]
                      exact Nat.lt_of_lt_of_le (hlt a (List.mem_cons_of_mem x ha))
                        (Nat.le_max_left _ _))]
    rw [length_writeBlock]
    have := hlt x (List.mem_cons_self x rest)
    omega

theorem tombAll_frame (B : List Block) :
    ∀ (is : List Nat) (j : Nat), j ∉ is → j < B.length →
      readBlock (tombAll B is) j = readBlock B j := by
  intro is
  induction is generalizing B with
  | nil => intro j _ _; rfl
  | cons x rest ih =>
    intro j hnm hj
    rw [tombAll]
    rw [ih (writeBlock B x (tombstone (readBlock B x))) j
      (fun hm => hnm (List.mem_cons_of_mem x hm))
      (by rw [length_writeBlock]; omega)]
    exact readBlock_writeBlock_lt B x _ j hj
      (fun he => hnm (he ▸ List.mem_cons_self x rest))

theorem tombAll_mem (B : List Block) :
    ∀ (is : List Nat), is.Nodup → (∀ a ∈ is, a < B.length) →
      ∀ i ∈ is, readBlock (tombAll B is) i = tombstone (readBlock B i) := by
  intro is
  induction is generalizing B with
  | nil => intro _ _ i hi; simp at hi
  | cons x rest ih =>
    intro hnd hlt i hi
    have hxlt : x < B.length := hlt x (List.mem_cons_self x rest)
    have hxrest : x ∉ rest := (List.nodup_cons.mp hnd).1
    rw [tombAll]
    rcases List.mem_cons.mp hi with rfl | hi2
    · rw [tombAll_frame _ rest i hxrest (by rw [length_writeBlock]; omega)]
      exact readBlock_writeBlock_self B i _
    · have hine : i ≠ x := fun he => hxrest (he ▸ hi2)
      rw [ih (writeBlock B x (tombstone (readBlock B x))) (List.nodup_cons.mp hnd).2
        (fun a ha => by rw [length_writeBlock]
                        exact Nat.lt_of_lt_of_le (hlt a (List.mem_cons_of_mem x ha))
                          (Nat.le_max_left _ _)) i hi2]
      rw [readBlock_writeBlock_lt B x _ i (hlt i hi) hine]

theorem removeGo_chain (fuel : Nat) :
    ∀ (B : List Block) (a : Nat) (rest : List Nat),
      chainListOK B (a :: rest) = true → (a :: rest).Nodup →
      (a :: rest).length ≤ fuel →
      removeGo B fuel a = some (tombAll B (a :: rest)) := by
  induction fuel with
  | zero => intro B a rest _ _ h; simp at h
  | succ fl ih =>
    intro B a rest hchain hnodup hlen
    rw [removeGo]
    cases rest with
    | nil =>
      simp [chainListOK] at hchain
      obtain ⟨⟨h1, h2⟩, h3⟩ := hchain
      rw [if_pos (by simp [h1, h2])]
      rfl
    | cons b rest2 =>
      simp [chainListOK] at hchain
      obtain ⟨⟨⟨h1, h2⟩, h3⟩, h4⟩ := hchain
      have hanm : a ∉ b :: rest2 := (List.nodup_cons.mp hnodup).1
      have hab : b ≠ a := fun he => hanm (he ▸ List.mem_cons_self b rest2)
      rw [if_neg (by simp [h1, h2]; exact hab)]
      rw [h2]
      have hchain2 : chainListOK (writeBlock B a (tombstone (readBlock B a)))
          (b :: rest2) = true :=
        chainListOK_write_notmem B a _ (b :: rest2) hanm h4
      rw [ih (writeBlock B a (tombstone (readBlock B a))) b rest2 hchain2
        (List.nodup_cons.mp hnodup).2 (by simp at hlen ⊢; omega)]
      rfl

/- ---------- the chain-consistency invariant (claim C2) ---------- -/

/-- A header is chain-consistent in an archive of the given block list and
    block count: its block is tombstoned, or is the self-loop end of a
    chain, or its successor exists (inside both the file and the allocation
    counter, so that a later add cannot overwrite it) and carries the same
    filename and isProcessed flag. -/
def headerOKb (B : List Block) (num : Nat) (h : Header) : Prop :=
  h.isEmpty = true ∨ h.nextBlockIndex = h.blockIndex ∨
  (h.nextBlockIndex < B.length ∧ h.nextBlockIndex < num ∧
   (readBlock B h.nextBlockIndex).header.blockFileName = h.blockFileName ∧
   (readBlock B h.nextBlockIndex).header.isProcessed = h.isProcessed)

def InvB (B : List Block) (num : Nat) : Prop :=
  ∀ i, i < B.length → headerOKb B num (readBlock B i).header

theorem chunkBlock_blockIndex (f : String) (c : List Nat) (p : Bool) (pos n i : Nat) :
    (chunkBlock f c p pos n i).header.blockIndex = pos := rfl

theorem chunkBlock_next (f : String) (c : List Nat) (p : Bool) (pos n i : Nat) :
    (chunkBlock f c p pos n i).header.nextBlockIndex
      = if i < n - 1 then pos + 1 else pos := rfl

theorem chunkBlock_fileName (f : String) (c : List Nat) (p : Bool) (pos n i : Nat) :
    (chunkBlock f c p pos n i).header.blockFileName = f := rfl

theorem chunkBlock_isProcessed (f : String) (c : List Nat) (p : Bool) (pos n i : Nat) :
    (chunkBlock f c p pos n i).header.isProcessed = p := rfl

theorem chunkBlock_isEmpty (f : String) (c : List Nat) (p : Bool) (pos n i : Nat) :
    (chunkBlock f c p pos n i).header.isEmpty = false := rfl

theorem InvB_add (s : ArchiveState) (f : String) (c : List Nat) (p : Bool)
    (hnc : tocContains s.arcTOC f = false)
    (hInv : InvB s.blocks s.arcNumBlocks) :
    InvB (add s f c p).1.blocks (add s f c p).1.arcNumBlocks := by
  intro i hi
  rw [add_length s f c p hnc] at hi
  rw [add_num s f c p hnc]
  rcases Nat.lt_or_ge i s.arcNumBlocks with hlo | hge
  · rcases Nat.lt_or_ge i s.blocks.length with hlen | hlen
    · rw [add_read_lo s f c p hnc i hlen hlo]
      rcases hInv i hlen with he | hs | ⟨hn1, hn2, hname, hproc⟩
      · exact Or.inl he
      · exact Or.inr (Or.inl hs)
      · refine Or.inr (Or.inr ⟨?_, ?_, ?_, ?_⟩)
        · rw [add_length s f c p hnc]; omega
        · omega
        · rw [add_read_lo s f c p hnc _ hn1 hn2]; exact hname
        · rw [add_read_lo s f c p hnc _ hn1 hn2]; exact hproc
    · rw [add_read_gap s f c p hnc i hlen hlo]
      exact Or.inr (Or.inl rfl)
  · rcases Nat.lt_or_ge i (s.arcNumBlocks + getStreamNumBlocks c.length StreamType.nonArchive)
      with hmid | hhi
    · have hj : i = s.arcNumBlocks + (i - s.arcNumBlocks) := by omega
      rw [hj, add_read_chunk s f c p hnc (i - s.arcNumBlocks) (by omega)]
      unfold headerOKb
      rw [chunkBlock_next, chunkBlock_blockIndex, chunkBlock_fileName,
        chunkBlock_isProcessed]
      by_cases hlast : i - s.arcNumBlocks < getStreamNumBlocks c.length StreamType.nonArchive - 1
      · rw [if_pos hlast]
        refine Or.inr (Or.inr ⟨?_, ?_, ?_, ?_⟩)
        · rw [add_length s f c p hnc]; omega
        · omega
        · rw [show s.arcNumBlocks + (i - s.arcNumBlocks) + 1
              = s.arcNumBlocks + (i - s.arcNumBlocks + 1) by omega,
            add_read_chunk s f c p hnc (i - s.arcNumBlocks + 1) (by omega),
            chunkBlock_fileName]
        · rw [show s.arcNumBlocks + (i - s.arcNumBlocks) + 1
              = s.arcNumBlocks + (i - s.arcNumBlocks + 1) by omega,
            add_read_chunk s f c p hnc (i - s.arcNumBlocks + 1) (by omega),
            chunkBlock_isProcessed]
      · rw [if_neg hlast]
        exact Or.inr (Or.inl rfl)
    · have hlen : i < s.blocks.length := by omega
      rw [add_read_hi s f c p hnc i hhi hlen]
      rcases hInv i hlen with he | hs | ⟨hn1, hn2, hname, hproc⟩
      · exact Or.inl he
      · exact Or.inr (Or.inl hs)
      · refine Or.inr (Or.inr ⟨?_, ?_, ?_, ?_⟩)
        · rw [add_length s f c p hnc]; omega
        · omega
        · rw [add_read_lo s f c p hnc _ hn1 hn2]; exact hname
        · rw [add_read_lo s f c p hnc _ hn1 hn2]; exact hproc

theorem tombstone_isEmpty (b : Block) : (tombstone b).header.isEmpty = true := rfl

theorem tombstone_fileName (b : Block) :
    (tombstone b).header.blockFileName = b.header.blockFileName := rfl

theorem tombstone_isProcessed (b : Block) :
    (tombstone b).header.isProcessed = b.header.isProcessed := rfl

theorem InvB_write_tomb (B : List Block) (num idx : Nat) (h : InvB B num) :
    InvB (writeBlock B idx (tombstone (readBlock B idx))) num := by
  intro i hi
  rw [length_writeBlock] at hi
  by_cases hieq : i = idx
  · subst hieq
    rw [readBlock_writeBlock_self]
    exact Or.inl (tombstone_isEmpty _)
  · rcases Nat.lt_or_ge i B.length with hlen | hlen
    · rw [readBlock_writeBlock_lt B idx _ i hlen hieq]
      rcases h i hlen with he | hs | ⟨hn1, hn2, hname, hproc⟩
      · exact Or.inl he
      · exact Or.inr (Or.inl hs)
      · refine Or.inr (Or.inr ⟨?_, hn2, ?_, ?_⟩)
        · rw [length_writeBlock]; omega
        · by_cases hne : (readBlock B i).header.nextBlockIndex = idx
          · rw [hne, readBlock_writeBlock_self, tombstone_fileName]
            rw [← hne]; exact hname
          · rw [readBlock_writeBlock_lt B idx _ _ hn1 hne]; exact hname
        · by_cases hne : (readBlock B i).header.nextBlockIndex = idx
          · rw [hne, readBlock_writeBlock_self, tombstone_isProcessed]
            rw [← hne]; exact hproc
          · rw [readBlock_writeBlock_lt B idx _ _ hn1 hne]; exact hproc
    · have higap : i < idx := by omega
      rw [readBlock_writeBlock_gap B idx _ i hlen higap]
      exact Or.inr (Or.inl rfl)

theorem InvB_removeGo (num : Nat) :
    ∀ (fuel : Nat) (B : List Block) (idx : Nat) (B2 : List Block),
      removeGo B fuel idx = some B2 → InvB B num → InvB B2 num := by
  intro fuel
  induction fuel with
  | zero => intro B idx B2 h; simp [removeGo] at h
  | succ fl ih =>
    intro B idx B2 h hInv
    rw [removeGo] at h
    by_cases hg : (readBlock B idx).header.nextBlockIndex
        == (readBlock B idx).header.blockIndex
    · rw [if_pos hg] at h
      cases h
      exact InvB_write_tomb B num idx hInv
    · rw [if_neg hg] at h
      exact ih _ _ _ h (InvB_write_tomb B num idx hInv)

theorem reachable_InvB (s : ArchiveState) (h : Reachable s) :
    InvB s.blocks s.arcNumBlocks := by
  induction h with
  | create p => intro i hi; simp [createArchive] at hi
  | stepAdd s f c p h hok ih =>
    by_cases hc : tocContains s.arcTOC f
    · have : (add s f c p).1 = s := by simp [add, hc]
      rw [this]; exact ih
    · exact InvB_add s f c p (Bool.not_eq_true _ ▸ Bool.of_not_eq_true hc) ih
  | stepExtract s f fuel h hok ih =>
    rw [show (extract s f fuel).1.blocks = s.blocks from rfl]
    rw [show (extract s f fuel).1.arcNumBlocks = s.arcNumBlocks from rfl]
    exact ih
  | stepRemove s s2 f fuel h hok ih =>
    unfold remove at hok
    cases hrg : removeGo s.blocks fuel
        (tocGetBlockIndex s.arcTOC (normalizeName s.arcFolder f)).1 with
    | none => rw [hrg] at hok; cases hok
    | some B2 =>
      rw [hrg] at hok
      cases hok
      exact InvB_removeGo s.arcNumBlocks fuel s.blocks _ B2 hrg ih
  | stepCompact s h ih => intro i hi; simp [compact] at hi

/- ---------- further helper lemmas for the claims ---------- -/

theorem tombstone_dataLen (b : Block) : (tombstone b).header.blockDataLen = 0 := rfl

theorem tombstone_next (b : Block) :
    (tombstone b).header.nextBlockIndex = b.header.nextBlockIndex := rfl

theorem tombstone_blockIndex (b : Block) :
    (tombstone b).header.blockIndex = b.header.blockIndex := rfl

theorem tombstone_processorType (b : Block) :
    (tombstone b).header.processorType = b.header.processorType := rfl

theorem tombstone_data (b : Block) : (tombstone b).data = b.data := rfl

theorem extract_snd (s : ArchiveState) (f : String) (fuel : Nat) :
    (extract s f fuel).2
      = extractGo s.blocks fuel
          (tocGetBlockIndex s.arcTOC (normalizeName s.arcFolder f)).1 [] := rfl

theorem dump_len_eq (L : Nat) :
    getStreamNumBlocks (L * kBlockSize) StreamType.archive - 1 = L := by
  show L * kBlockSize / kBlockSize + 1 - 1 = L
  rw [Nat.mul_div_cancel L (by decide : 0 < kBlockSize)]
  omega

theorem remove_resolved (s : ArchiveState) (f : String) (fuel : Nat) (i0 : Nat)
    (B2 : List Block)
    (hl : tocLookup s.arcTOC (normalizeName s.arcFolder f) = some i0)
    (hrg : removeGo s.blocks fuel i0 = some B2) :
    remove s f fuel
      = some
          { s with
            blocks := B2
            arcTOC := tocErase s.arcTOC (normalizeName s.arcFolder f) } := by
  unfold remove
  rw [tocGetBlockIndex_of_lookup _ _ _ hl]
  show (match removeGo s.blocks fuel i0 with
    | none => none
    | some blocks2 => some
        { s with
          blocks := blocks2
          arcTOC := tocErase s.arcTOC (normalizeName s.arcFolder f) }) = _
  rw [hrg]

theorem tocContains_tocInsert (t : TOC) (k2 k : String) (v : Nat) :
    tocContains (tocInsert t k2 v) k = (tocContains t k || k2 == k) := by
  by_cases h : tocContains t k2
  · rw [tocInsert_of_contains t k2 v h]
    by_cases he : k2 == k
    · have hk : k2 = k := by simpa using he
      subst hk
      simp [h]
    · simp [he]
  · rw [tocInsert_of_not_contains t k2 v (by simpa using h)]
    rw [tocContains_append]
    simp [tocContains]

theorem reconstructTOC_succ (B : List Block) (n : Nat) :
    reconstructTOC B (n + 1)
      = (if (readBlock B n).header.isEmpty then reconstructTOC B n
         else tocInsert (reconstructTOC B n)
           (readBlock B n).header.blockFileName (readBlock B n).header.blockIndex) := by
  unfold reconstructTOC
  rw [List.range_succ, List.foldl_append]
  rfl

theorem reconstructTOC_contains (B : List Block) :
    ∀ (n : Nat) (k : String),
      tocContains (reconstructTOC B n) k = true
        ↔ ∃ i, i < n ∧ (readBlock B i).header.isEmpty = false
            ∧ (readBlock B i).header.blockFileName = k := by
  intro n
  induction n with
  | zero =>
    intro k
    constructor
    · intro h; simp [reconstructTOC, tocContains] at h
    · intro ⟨i, hi, _⟩; omega
  | succ m ih =>
    intro k
    rw [reconstructTOC_succ]
    by_cases hemp : (readBlock B m).header.isEmpty
    · rw [if_pos hemp]
      constructor
      · intro h
        obtain ⟨i, hi, h2, h3⟩ := (ih k).mp h
        exact ⟨i, by omega, h2, h3⟩
      · intro ⟨i, hi, h2, h3⟩
        rcases Nat.lt_or_ge i m with him | him
        · exact (ih k).mpr ⟨i, him, h2, h3⟩
        · have : i = m := by omega
          subst this
          rw [hemp] at h2
          cases h2
    · rw [if_neg hemp]
      rw [tocContains_tocInsert]
      constructor
      · intro h
        rcases Bool.or_eq_true_iff.mp h with h2 | h2
        · obtain ⟨i, hi, h3, h4⟩ := (ih k).mp h2
          exact ⟨i, by omega, h3, h4⟩
        · exact ⟨m, by omega, Bool.of_not_eq_true hemp, by simpa using h2⟩
      · intro ⟨i, hi, h2, h3⟩
        rcases Nat.lt_or_ge i m with him | him
        · exact Bool.or_eq_true_iff.mpr (Or.inl ((ih k).mpr ⟨i, him, h2, h3⟩))
        · have : i = m := by omega
          subst this
          exact Bool.or_eq_true_iff.mpr (Or.inr (by simpa using h3))

theorem mem_nonEmptyNames (B : List Block) (k : String) :
    k ∈ nonEmptyNames B
      ↔ ∃ i, i < B.length ∧ (readBlock B i).header.isEmpty = false
          ∧ (readBlock B i).header.blockFileName = k := by
  unfold nonEmptyNames
  constructor
  · intro h
    obtain ⟨i, hi, rfl⟩ := List.mem_map.mp h
    have hi2 := List.mem_filter.mp hi
    exact ⟨i, List.mem_range.mp hi2.1, by simpa using hi2.2, rfl⟩
  · intro ⟨i, hi, h2, h3⟩
    exact List.mem_map.mpr ⟨i,
      List.mem_filter.mpr ⟨List.mem_range.mpr hi, by simpa using h2⟩, h3⟩

theorem tocContains_iff_exists_mem (t : TOC) (k : String) :
    tocContains t k = true ↔ ∃ e, e ∈ t ∧ e.1 = k := by
  induction t with
  | nil => simp [tocContains]
  | cons e2 es ih =>
    rw [tocContains]
    constructor
    · intro h
      rcases Bool.or_eq_true_iff.mp h with h2 | h2
      · exact ⟨e2, List.mem_cons_self e2 es, by simpa using h2⟩
      · obtain ⟨e3, he3, h4⟩ := ih.mp h2
        exact ⟨e3, List.mem_cons_of_mem e2 he3, h4⟩
    · intro ⟨e3, he3, h4⟩
      rcases List.mem_cons.mp he3 with rfl | h5
      · exact Bool.or_eq_true_iff.mpr (Or.inl (by simpa using h4))
      · exact Bool.or_eq_true_iff.mpr (Or.inr (ih.mpr ⟨e3, h5, h4⟩))

theorem mem_listNames (s : ArchiveState) (nm : String) :
    nm ∈ listNames s
      ↔ ∃ k, tocContains s.arcTOC k = true ∧ stripParent k = nm := by
  unfold listNames
  constructor
  · intro h
    obtain ⟨e, he, rfl⟩ := List.mem_map.mp h
    exact ⟨e.1, (tocContains_iff_exists_mem _ _).mpr ⟨e, he, rfl⟩, rfl⟩
  · intro ⟨k, hk, h2⟩
    obtain ⟨e, he, h3⟩ := (tocContains_iff_exists_mem _ _).mp hk
    exact List.mem_map.mpr ⟨e, he, by rw [h3, h2]⟩

theorem tocErase_subset (t : TOC) (k : String) :
    ∀ e, e ∈ tocErase t k → e ∈ t := by
  induction t with
  | nil => intro e he; simp [tocErase] at he
  | cons e2 es ih =>
    intro e he
    by_cases h : e2.1 == k
    · rw [tocErase, if_pos h] at he
      exact List.mem_cons_of_mem e2 (ih e he)
    · rw [tocErase, if_neg h] at he
      rcases List.mem_cons.mp he with rfl | h2
      · exact List.mem_cons_self e es
      · exact List.mem_cons_of_mem e2 (ih e h2)

theorem tocErase_mem_ne (t : TOC) (k : String) :
    ∀ e, e ∈ tocErase t k → e.1 ≠ k := by
  induction t with
  | nil => intro e he; simp [tocErase] at he
  | cons e2 es ih =>
    intro e he
    by_cases h : e2.1 == k
    · rw [tocErase, if_pos h] at he
      exact ih e he
    · rw [tocErase, if_neg h] at he
      rcases List.mem_cons.mp he with rfl | h2
      · simpa using h
      · exact ih e h2

/- ---------- sample archives used to instantiate the claims ---------- -/

/-- create "test.arc" (folder ""), then add "a.txt" with bytes [1,2,3]:
    one chunk block stored at index 0. -/
def sampleOne : ArchiveState :=
  (add (createArchive "test.arc") "a.txt" [1, 2, 3] false).1

/-- create "test.arc" (folder ""), then add "d/a.txt" with byte [5]. -/
def sampleFolderOne : ArchiveState :=
  (add (createArchive "test.arc") "d/a.txt" [5] false).1

/-- create "d/test.arc" (folder "d"), then add "a.txt" with byte [5]: the
    TOC key is the raw name "a.txt", but extract/remove will look up
    "d/a.txt". -/
def sampleDirA : ArchiveState :=
  (add (createArchive "d/test.arc") "a.txt" [5] false).1

/- ---------- claims ---------- -/

/-- Claim C2: for every archive reachable by a sequence of successful
    operations (create, add, extract, remove, compact) and every non-empty
    block b in it, either b.nextBlockIndex = b.blockIndex (self-loop
    sentinel), or the block at index b.nextBlockIndex exists and has the
    same fileName and the same isProcessed flag as b. -/
theorem C2_chain_invariant (s : ArchiveState) (hs : Reachable s) (i : Nat)
    (hi : i < s.blocks.length)
    (hne : (readBlock s.blocks i).header.isEmpty = false) :
    (readBlock s.blocks i).header.nextBlockIndex
      = (readBlock s.blocks i).header.blockIndex ∨
    ((readBlock s.blocks i).header.nextBlockIndex < s.blocks.length ∧
     (readBlock s.blocks
        ((readBlock s.blocks i).header.nextBlockIndex)).header.blockFileName
       = (readBlock s.blocks i).header.blockFileName ∧
     (readBlock s.blocks
        ((readBlock s.blocks i).header.nextBlockIndex)).header.isProcessed
       = (readBlock s.blocks i).header.isProcessed) := by
  rcases reachable_InvB s hs i hi with he | h2 | ⟨h1, h2, h3, h4⟩
  · rw [hne] at he
    cases he
  · exact Or.inl h2
  · exact Or.inr ⟨h1, h3, h4⟩

/-- Witness for C2 at a concrete reachable archive: after one add, block 0
    is non-empty and is the self-loop end of its chain. -/
theorem C2_chain_invariant_witness :
    0 < sampleOne.blocks.length ∧
    (readBlock sampleOne.blocks 0).header.isEmpty = false ∧
    ((readBlock sampleOne.blocks 0).header.nextBlockIndex
       = (readBlock sampleOne.blocks 0).header.blockIndex ∨
     ((readBlock sampleOne.blocks 0).header.nextBlockIndex < sampleOne.blocks.length ∧
      (readBlock sampleOne.blocks
        ((readBlock sampleOne.blocks 0).header.nextBlockIndex)).header.blockFileName
        = (readBlock sampleOne.blocks 0).header.blockFileName ∧
      (readBlock sampleOne.blocks
        ((readBlock sampleOne.blocks 0).header.nextBlockIndex)).header.isProcessed
        = (readBlock sampleOne.blocks 0).header.isProcessed)) :=
  ⟨by decide, by decide,
   C2_chain_invariant sampleOne
     (Reachable.stepAdd (createArchive "test.arc") "a.txt" [1, 2, 3] false
       (Reachable.create "test.arc") rfl)
     0 (by decide) (by decide)⟩

/-- Claim C3 (code bug): compact is claimed to keep exactly the non-empty
    blocks in stream order, remap nextBlockIndex through an oldIdx-to-newIdx
    map, replace the archive file with the rewritten one, rebuild the TOC
    and return the survivor count.  The code instead loops one position past
    the end of the file (counting and writing the default-constructed block
    of the failed read as a survivor), performs no remapping, then reopens
    the archive path with std::fstream::trunc, truncating the file to zero
    bytes, and leaves the TOC and numBlocks stale: on an archive holding one
    single-block file it returns 2 and empties the file. -/
theorem C3_compact_truncates :
    (compact sampleOne).2 = 2 ∧
    (compact sampleOne).1.blocks = [] ∧
    (compact sampleOne).1.arcTOC = [("a.txt", 0)] ∧
    (compact sampleOne).1.arcNumBlocks = 1 := by
  refine ⟨by decide, rfl, by decide, by decide⟩

/-- Claim C4 (code bug): extract of a filename absent from the TOC is
    claimed to fail with fileNotFound and write nothing; the code resolves
    the name with std::map::operator[], which default-inserts the name with
    block index 0 and returns 0, so extract succeeds and writes the payload
    bytes of the chain starting at block 0 (here the content [1,2,3] of the
    unrelated file "a.txt"). -/
theorem C4_extract_unknown_succeeds :
    tocContains sampleOne.arcTOC "b.txt" = false ∧
    (extract sampleOne "b.txt" 1).2 = some [1, 2, 3] ∧
    (extract sampleOne "b.txt" 1).1.arcTOC = [("a.txt", 0), ("b.txt", 0)] := by
  refine ⟨by decide, by decide, by decide⟩

/-- Claim C5 (code bug): add is claimed to allocate exactly
    max(1, ceil(size / payloadCapacity)) blocks, so a file whose size is an
    exact multiple of the payload capacity should occupy size/capacity
    blocks, not one more.  getStreamNumBlocks computes
    fileLen / capacity + 1 unconditionally, so a file of exactly
    payloadCapacity = 960 bytes gets 2 blocks, the second with
    blockDataLen 0 (the zero-byte case, one block with dataLen 0, agrees
    with the claim). -/
theorem C5_exact_multiple_extra_block :
    getStreamNumBlocks payloadCapacity StreamType.nonArchive = 2 ∧
    specNumChunks payloadCapacity payloadCapacity = 1 ∧
    (add (createArchive "test.arc") "big.bin"
      (List.replicate payloadCapacity 7) false).1.arcNumBlocks = 2 ∧
    (readBlock (add (createArchive "test.arc") "big.bin"
      (List.replicate payloadCapacity 7) false).1.blocks 1).header.blockDataLen = 0 ∧
    getStreamNumBlocks 0 StreamType.nonArchive = 1 := by
  refine ⟨by decide, by decide, by decide, by decide, by decide⟩

/-- Claim C6: for every filename already present in the TOC, add fails with
    fileExists and leaves the archive completely unchanged (no block
    written, numBlocks unchanged, TOC unchanged). -/
theorem C6_add_fileExists_unchanged (s : ArchiveState) (f : String)
    (c : List Nat) (p : Bool) (h : tocContains s.arcTOC f = true) :
    add s f c p = (s, Except.error ArchiveErrors.fileExists) := by
  simp [add, h]

/-- Witness for C6: adding "a.txt" a second time fails with fileExists and
    returns the archive state unchanged. -/
theorem C6_add_fileExists_unchanged_witness :
    tocContains sampleOne.arcTOC "a.txt" = true ∧
    add sampleOne "a.txt" [9] true
      = (sampleOne, Except.error ArchiveErrors.fileExists) :=
  ⟨by decide, C6_add_fileExists_unchanged sampleOne "a.txt" [9] true (by decide)⟩

/-- Claim C9: add never reuses tombstoned blocks: a successful add of a
    file needing n = getStreamNumBlocks chunks returns ok, writes the chunks
    at the fresh contiguous indices numBlocks .. numBlocks+n-1 at the end of
    the archive, increases numBlocks by exactly n, and leaves every existing
    block below the old numBlocks untouched.  The chunk loop never consults
    the vector produced by getEmptyBlocks, so these conclusions hold for
    every archive state, in particular for states with tombstoned blocks:
    removed space is never reallocated by add. -/
theorem C9_add_fresh_allocation (s : ArchiveState) (f : String) (c : List Nat)
    (p : Bool) (h : tocContains s.arcTOC f = false) :
    (add s f c p).2 = Except.ok true ∧
    (add s f c p).1.arcNumBlocks
      = s.arcNumBlocks + getStreamNumBlocks c.length StreamType.nonArchive ∧
    (∀ j, j < getStreamNumBlocks c.length StreamType.nonArchive →
      readBlock (add s f c p).1.blocks (s.arcNumBlocks + j)
        = chunkBlock f c p (s.arcNumBlocks + j)
            (getStreamNumBlocks c.length StreamType.nonArchive) j) ∧
    (∀ j, j < s.blocks.length → j < s.arcNumBlocks →
      readBlock (add s f c p).1.blocks j = readBlock s.blocks j) :=
  ⟨add_ok s f c p h, add_num s f c p h,
   fun j hj => add_read_chunk s f c p h j hj,
   fun j h1 h2 => add_read_lo s f c p h j h1 h2⟩

/-- Witness for C9: adding "b.txt" with one byte to sampleOne (whose block 0
    and numBlocks = 1 exist) allocates exactly block 1 and leaves block 0
    untouched. -/
theorem C9_add_fresh_allocation_witness :
    tocContains sampleOne.arcTOC "b.txt" = false ∧
    (add sampleOne "b.txt" [9] false).2 = Except.ok true ∧
    (add sampleOne "b.txt" [9] false).1.arcNumBlocks = 2 ∧
    readBlock (add sampleOne "b.txt" [9] false).1.blocks 1
      = chunkBlock "b.txt" [9] false 1 1 0 ∧
    readBlock (add sampleOne "b.txt" [9] false).1.blocks 0
      = readBlock sampleOne.blocks 0 :=
  ⟨by decide,
   (C9_add_fresh_allocation sampleOne "b.txt" [9] false (by decide)).1,
   (C9_add_fresh_allocation sampleOne "b.txt" [9] false (by decide)).2.1,
   (C9_add_fresh_allocation sampleOne "b.txt" [9] false (by decide)).2.2.1 0 (by decide),
   (C9_add_fresh_allocation sampleOne "b.txt" [9] false (by decide)).2.2.2 0
     (by decide) (by decide)⟩

/-- create "d/test.arc" (folder "d"), add "a.txt" (bytes [7]) then "b.txt"
    (bytes [9]): both TOC keys are raw names without the folder prefix. -/
def sampleTwoMismatch : ArchiveState :=
  (add (add (createArchive "d/test.arc") "a.txt" [7] false).1 "b.txt" [9] false).1

/-- Claim C1 (amended): for every file f whose name is not yet in the
    archive, CONTAINS the archive's folder string (so the lookup
    normalization of extract is the identity) and contains a slash (so the
    basename stripping of list is correct), if add(f) succeeds then
    extract(f, out) succeeds and writes exactly the bytes f had at add time,
    and list includes basename(f). -/
theorem C1_roundtrip_amended (s : ArchiveState) (f : String) (c : List Nat)
    (h1 : tocContains s.arcTOC f = false)
    (h2 : strContainsSub f s.arcFolder = true)
    (h3 : hasSlash f.toList = true) :
    (add s f c false).2 = Except.ok true ∧
    (extract (add s f c false).1 f
        (getStreamNumBlocks c.length StreamType.nonArchive)).2 = some c ∧
    basename f ∈ listNames (add s f c false).1 := by
  refine ⟨add_ok s f c false h1, ?_, ?_⟩
  · rw [extract_snd]
    have hfold : (add s f c false).1.arcFolder = s.arcFolder := add_folder s f c false
    have hnorm : normalizeName (add s f c false).1.arcFolder f = f := by
      rw [hfold]
      exact normalizeName_of_contains s.arcFolder f h2
    rw [hnorm]
    have htoc := add_toc s f c false h1
    have hlook : tocLookup (add s f c false).1.arcTOC f = some s.arcNumBlocks := by
      rw [htoc, tocLookup_append s.arcTOC _ f h1, tocLookup_cons_self]
    rw [tocGetBlockIndex_of_lookup _ _ _ hlook]
    have hwalk := extractGo_chunks (add s f c false).1.blocks f c false s.arcNumBlocks
      (getStreamNumBlocks c.length StreamType.nonArchive) rfl
      (fun j hj => add_read_chunk s f c false h1 j hj)
      (getStreamNumBlocks c.length StreamType.nonArchive) 0 [] (by omega)
      (numBlocksNeeded_pos c.length)
    simpa using hwalk
  · rw [← stripParent_eq_basename f h3]
    have htoc := add_toc s f c false h1
    unfold listNames
    rw [htoc]
    exact List.mem_map.mpr
      ⟨(f, s.arcNumBlocks), List.mem_append_right _ (List.mem_singleton.mpr rfl), rfl⟩

/-- Counterexample to C1 as stated: with archive folder "d", add "b.txt"
    (no folder prefix, no slash) succeeds, but extract "b.txt" normalizes
    the name to "d/b.txt", which is not a TOC key, default-inserts it with
    index 0, and returns the bytes [7] of the unrelated file "a.txt" instead
    of [9]; and list prints "b.txt" with its first character stripped
    (".txt"), so it does not include basename "b.txt". -/
theorem C1_counterexample :
    (add (add (createArchive "d/test.arc") "a.txt" [7] false).1
      "b.txt" [9] false).2 = Except.ok true ∧
    (extract sampleTwoMismatch "b.txt" 1).2 = some [7] ∧
    some [7] ≠ some ([9] : List Nat) ∧
    basename "b.txt" ∉ listNames sampleTwoMismatch := by
  refine ⟨rfl, by decide, by decide, by decide⟩

/-- Witness for C1 (amended): round trip of "d/hello.txt" with bytes [5,6]
    through a fresh archive whose folder is "". -/
theorem C1_roundtrip_amended_witness :
    tocContains (createArchive "test.arc").arcTOC "d/hello.txt" = false ∧
    strContainsSub "d/hello.txt" (createArchive "test.arc").arcFolder = true ∧
    hasSlash "d/hello.txt".toList = true ∧
    ((add (createArchive "test.arc") "d/hello.txt" [5, 6] false).2 = Except.ok true ∧
     (extract (add (createArchive "test.arc") "d/hello.txt" [5, 6] false).1
        "d/hello.txt" (getStreamNumBlocks 2 StreamType.nonArchive)).2 = some [5, 6] ∧
     basename "d/hello.txt"
       ∈ listNames (add (createArchive "test.arc") "d/hello.txt" [5, 6] false).1) :=
  ⟨by decide, by decide, by decide,
   C1_roundtrip_amended (createArchive "test.arc") "d/hello.txt" [5, 6]
     (by decide) (by decide) (by decide)⟩

theorem debugDump_mem (s : ArchiveState) (i : Nat) (hi : i < s.blocks.length) :
    ((readBlock s.blocks i).header.blockIndex,
      (readBlock s.blocks i).header.isEmpty,
      stripParent (readBlock s.blocks i).header.blockFileName) ∈ debugDump s := by
  unfold debugDump
  rw [dump_len_eq]
  exact List.mem_map.mpr ⟨i, List.mem_range.mpr hi, rfl⟩

/-- Claim C7 (amended): for every archived file f whose name contains the
    archive's folder string (so the lookup normalization of remove is the
    identity and resolves f's own TOC entry) and whose printed basename is
    not shared with another TOC entry, remove(f) walks f's entire chain
    setting isEmpty = true and blockDataLen = 0 on each chain block, erases
    f from the TOC, afterwards list does not include f, and debugDump shows
    each previously-used block with isEmpty = true. -/
theorem C7_remove_amended (s : ArchiveState) (f : String) (i0 : Nat)
    (rest : List Nat) (fuel : Nat)
    (h2 : strContainsSub f s.arcFolder = true)
    (hl : tocLookup s.arcTOC f = some i0)
    (hch : chainListOK s.blocks (i0 :: rest) = true)
    (hnd : (i0 :: rest).Nodup)
    (hfuel : (i0 :: rest).length ≤ fuel)
    (huniq : ∀ e ∈ s.arcTOC, stripParent e.1 = stripParent f → e.1 = f) :
    remove s f fuel
      = some
          { s with
            blocks := tombAll s.blocks (i0 :: rest)
            arcTOC := tocErase s.arcTOC f } ∧
    (∀ i ∈ i0 :: rest,
      (readBlock (tombAll s.blocks (i0 :: rest)) i).header.isEmpty = true ∧
      (readBlock (tombAll s.blocks (i0 :: rest)) i).header.blockDataLen = 0) ∧
    tocContains (tocErase s.arcTOC f) f = false ∧
    stripParent f ∉ listNames
      { s with
        blocks := tombAll s.blocks (i0 :: rest)
        arcTOC := tocErase s.arcTOC f } ∧
    (∀ i ∈ i0 :: rest,
      ((readBlock (tombAll s.blocks (i0 :: rest)) i).header.blockIndex,
        (readBlock (tombAll s.blocks (i0 :: rest)) i).header.isEmpty,
        stripParent (readBlock (tombAll s.blocks (i0 :: rest)) i).header.blockFileName)
        ∈ debugDump
            { s with
              blocks := tombAll s.blocks (i0 :: rest)
              arcTOC := tocErase s.arcTOC f }) := by
  have hnorm : normalizeName s.arcFolder f = f := normalizeName_of_contains _ _ h2
  have hlt : ∀ a ∈ i0 :: rest, a < s.blocks.length := chainListOK_mem_lt s.blocks _ hch
  have hrg : removeGo s.blocks fuel i0 = some (tombAll s.blocks (i0 :: rest)) :=
    removeGo_chain fuel s.blocks i0 rest hch hnd hfuel
  have hmem := tombAll_mem s.blocks (i0 :: rest) hnd hlt
  have hlen : (tombAll s.blocks (i0 :: rest)).length = s.blocks.length :=
    tombAll_length s.blocks _ hlt
  refine ⟨?_, ?_, tocContains_erase_self s.arcTOC f, ?_, ?_⟩
  · have hres := remove_resolved s f fuel i0 (tombAll s.blocks (i0 :: rest))
      (by rw [hnorm]; exact hl) hrg
    rw [hnorm] at hres
    exact hres
  · intro i hi
    rw [hmem i hi]
    exact ⟨tombstone_isEmpty _, tombstone_dataLen _⟩
  · intro hmemlist
    obtain ⟨k, hk, hstrip⟩ := (mem_listNames _ _).mp hmemlist
    obtain ⟨e, he, he1⟩ := (tocContains_iff_exists_mem _ _).mp hk
    have hef : e.1 = f := huniq e (tocErase_subset s.arcTOC f e he) (by rw [he1, hstrip])
    exact tocErase_mem_ne s.arcTOC f e he hef
  · intro i hi
    exact debugDump_mem
      { s with
        blocks := tombAll s.blocks (i0 :: rest)
        arcTOC := tocErase s.arcTOC f } i
      (Nat.lt_of_lt_of_eq (hlt i hi) hlen.symm)

/-- Counterexample to C7 as stated: with archive folder "d", "a.txt" is
    archived (it is a TOC key), and remove "a.txt" succeeds, but it looked
    up the normalized name "d/a.txt" (default-inserting it), erased only
    that key, and left "a.txt" in the TOC, so list still includes the
    printed name of "a.txt". -/
theorem C7_counterexample :
    tocContains sampleDirA.arcTOC "a.txt" = true ∧
    (remove sampleDirA "a.txt" 1).isSome = true ∧
    tocContains ((remove sampleDirA "a.txt" 1).getD sampleDirA).arcTOC "a.txt" = true ∧
    stripParent "a.txt" ∈ listNames ((remove sampleDirA "a.txt" 1).getD sampleDirA) := by
  refine ⟨by decide, by decide, by decide, by decide⟩

/-- Witness for C7 (amended): removing the single-block file "d/a.txt" from
    sampleFolderOne tombstones block 0, erases the key, and the listing no
    longer shows it. -/
theorem C7_remove_amended_witness :
    strContainsSub "d/a.txt" sampleFolderOne.arcFolder = true ∧
    tocLookup sampleFolderOne.arcTOC "d/a.txt" = some 0 ∧
    chainListOK sampleFolderOne.blocks [0] = true ∧
    remove sampleFolderOne "d/a.txt" 1
      = some
          { sampleFolderOne with
            blocks := tombAll sampleFolderOne.blocks [0]
            arcTOC := tocErase sampleFolderOne.arcTOC "d/a.txt" } ∧
    (readBlock (tombAll sampleFolderOne.blocks [0]) 0).header.isEmpty = true ∧
    stripParent "d/a.txt" ∉ listNames
      { sampleFolderOne with
        blocks := tombAll sampleFolderOne.blocks [0]
        arcTOC := tocErase sampleFolderOne.arcTOC "d/a.txt" } :=
  ⟨by decide, by decide, by decide,
   (C7_remove_amended sampleFolderOne "d/a.txt" 0 [] 1 (by decide) (by decide)
     (by decide) (by decide) (by decide) (by decide)).1,
   ((C7_remove_amended sampleFolderOne "d/a.txt" 0 [] 1 (by decide) (by decide)
     (by decide) (by decide) (by decide) (by decide)).2.1 0 (by decide)).1,
   (C7_remove_amended sampleFolderOne "d/a.txt" 0 [] 1 (by decide) (by decide)
     (by decide) (by decide) (by decide) (by decide)).2.2.2.1⟩

/-- Claim C10: for every archived file f (resolved through the TOC to its
    chain), remove(f) changes only the isEmpty and blockDataLen header
    fields of the blocks in f's chain: each tombstoned block's fileName,
    nextBlockIndex, blockIndex, isProcessed, processorType and payload
    bytes are left unchanged, and no block outside f's chain is modified
    (the file length is unchanged too). -/
theorem C10_remove_frame (s : ArchiveState) (f : String) (i0 : Nat)
    (rest : List Nat) (fuel : Nat)
    (hl : tocLookup s.arcTOC (normalizeName s.arcFolder f) = some i0)
    (hch : chainListOK s.blocks (i0 :: rest) = true)
    (hnd : (i0 :: rest).Nodup)
    (hfuel : (i0 :: rest).length ≤ fuel) :
    remove s f fuel
      = some
          { s with
            blocks := tombAll s.blocks (i0 :: rest)
            arcTOC := tocErase s.arcTOC (normalizeName s.arcFolder f) } ∧
    (tombAll s.blocks (i0 :: rest)).length = s.blocks.length ∧
    (∀ i ∈ i0 :: rest,
      (readBlock (tombAll s.blocks (i0 :: rest)) i).header.isEmpty = true ∧
      (readBlock (tombAll s.blocks (i0 :: rest)) i).header.blockDataLen = 0 ∧
      (readBlock (tombAll s.blocks (i0 :: rest)) i).header.blockFileName
        = (readBlock s.blocks i).header.blockFileName ∧
      (readBlock (tombAll s.blocks (i0 :: rest)) i).header.nextBlockIndex
        = (readBlock s.blocks i).header.nextBlockIndex ∧
      (readBlock (tombAll s.blocks (i0 :: rest)) i).header.blockIndex
        = (readBlock s.blocks i).header.blockIndex ∧
      (readBlock (tombAll s.blocks (i0 :: rest)) i).header.isProcessed
        = (readBlock s.blocks i).header.isProcessed ∧
      (readBlock (tombAll s.blocks (i0 :: rest)) i).header.processorType
        = (readBlock s.blocks i).header.processorType ∧
      (readBlock (tombAll s.blocks (i0 :: rest)) i).data
        = (readBlock s.blocks i).data) ∧
    (∀ j, j < s.blocks.length → j ∉ i0 :: rest →
      readBlock (tombAll s.blocks (i0 :: rest)) j = readBlock s.blocks j) := by
  have hlt : ∀ a ∈ i0 :: rest, a < s.blocks.length := chainListOK_mem_lt s.blocks _ hch
  have hrg : removeGo s.blocks fuel i0 = some (tombAll s.blocks (i0 :: rest)) :=
    removeGo_chain fuel s.blocks i0 rest hch hnd hfuel
  have hmem := tombAll_mem s.blocks (i0 :: rest) hnd hlt
  refine ⟨remove_resolved s f fuel i0 _ hl hrg,
    tombAll_length s.blocks _ hlt, ?_, ?_⟩
  · intro i hi
    rw [hmem i hi]
    exact ⟨tombstone_isEmpty _, tombstone_dataLen _, tombstone_fileName _,
      tombstone_next _, tombstone_blockIndex _, tombstone_isProcessed _,
      tombstone_processorType _, tombstone_data _⟩
  · intro j hj hnm
    exact tombAll_frame s.blocks (i0 :: rest) j hnm hj

/-- Witness for C10: removing "d/a.txt" from sampleFolderOne tombstones
    block 0 while preserving its fileName and payload, and there is no
    other block to modify (the file length stays 1). -/
theorem C10_remove_frame_witness :
    tocLookup sampleFolderOne.arcTOC
      (normalizeName sampleFolderOne.arcFolder "d/a.txt") = some 0 ∧
    chainListOK sampleFolderOne.blocks [0] = true ∧
    (tombAll sampleFolderOne.blocks [0]).length = sampleFolderOne.blocks.length ∧
    (readBlock (tombAll sampleFolderOne.blocks [0]) 0).header.blockFileName
      = (readBlock sampleFolderOne.blocks 0).header.blockFileName ∧
    (readBlock (tombAll sampleFolderOne.blocks [0]) 0).data
      = (readBlock sampleFolderOne.blocks 0).data :=
  ⟨by decide, by decide,
   (C10_remove_frame sampleFolderOne "d/a.txt" 0 [] 1 (by decide) (by decide)
     (by decide) (by decide)).2.1,
   ((C10_remove_frame sampleFolderOne "d/a.txt" 0 [] 1 (by decide) (by decide)
     (by decide) (by decide)).2.2.1 0 (by decide)).2.2.1,
   ((C10_remove_frame sampleFolderOne "d/a.txt" 0 [] 1 (by decide) (by decide)
     (by decide) (by decide)).2.2.1 0 (by decide)).2.2.2.2.2.2.2⟩

/-- sampleOne after a successful extract of the unknown name "zz.txt":
    the operator[] lookup poisons the in-memory TOC with ("zz.txt", 0). -/
def samplePoisoned : ArchiveState := (extract sampleOne "zz.txt" 1).1

/-- Claim C8 (amended): open computes numBlocks as fileLen / BLOCK_SIZE and
    rebuilds the TOC by scanning all blocks, inserting each non-empty
    block's filename when not already mapped; and PROVIDED the in-memory
    TOC keys coincide with the filenames of the non-empty blocks (which a
    poisoning extract/remove lookup or a compact can break), destroying the
    Archive and reopening the same archive file yields a list with the same
    set of filenames as before closing. -/
theorem C8_reopen_amended (s : ArchiveState) (path : String)
    (hcoh1 : ∀ e ∈ s.arcTOC, e.1 ∈ nonEmptyNames s.blocks)
    (hcoh2 : ∀ nm ∈ nonEmptyNames s.blocks, tocContains s.arcTOC nm = true) :
    (openArchive path s.blocks).arcNumBlocks = s.blocks.length ∧
    (openArchive path s.blocks).arcTOC = reconstructTOC s.blocks s.blocks.length ∧
    (∀ nm, nm ∈ listNames (openArchive path s.blocks) ↔ nm ∈ listNames s) := by
  have htoc : (openArchive path s.blocks).arcTOC
      = reconstructTOC s.blocks s.blocks.length := by
    rw [show (openArchive path s.blocks).arcTOC
        = reconstructTOC s.blocks
            (getStreamNumBlocks (s.blocks.length * kBlockSize) StreamType.archive - 1)
      from rfl, dump_len_eq]
  refine ⟨?_, htoc, ?_⟩
  · rw [show (openArchive path s.blocks).arcNumBlocks
        = getStreamNumBlocks (s.blocks.length * kBlockSize) StreamType.archive - 1
      from rfl, dump_len_eq]
  · intro nm
    have hkey : ∀ k, tocContains (openArchive path s.blocks).arcTOC k = true
        ↔ tocContains s.arcTOC k = true := by
      intro k
      rw [htoc]
      constructor
      · intro h
        obtain ⟨i, hi, hh2, hh3⟩ := (reconstructTOC_contains s.blocks s.blocks.length k).mp h
        exact hcoh2 k ((mem_nonEmptyNames _ _).mpr ⟨i, hi, hh2, hh3⟩)
      · intro h
        obtain ⟨e, he, rfl⟩ := (tocContains_iff_exists_mem _ _).mp h
        obtain ⟨i, hi, hh2, hh3⟩ := (mem_nonEmptyNames _ _).mp (hcoh1 e he)
        exact (reconstructTOC_contains s.blocks s.blocks.length e.1).mpr ⟨i, hi, hh2, hh3⟩
    constructor
    · intro h
      obtain ⟨k, hk, hh2⟩ := (mem_listNames _ _).mp h
      exact (mem_listNames _ _).mpr ⟨k, (hkey k).mp hk, hh2⟩
    · intro h
      obtain ⟨k, hk, hh2⟩ := (mem_listNames _ _).mp h
      exact (mem_listNames _ _).mpr ⟨k, (hkey k).mpr hk, hh2⟩

/-- Counterexample to C8 as stated: after the successful operations
    create; add "a.txt"; extract "zz.txt" (which succeeds and poisons the
    TOC with ("zz.txt", 0)), the listing shows the entry "z.txt" derived
    from "zz.txt", but reopening the same archive file rebuilds the TOC
    from the blocks alone, and that entry is gone: the filename sets
    before closing and after reopening differ. -/
theorem C8_counterexample :
    stripParent "zz.txt" ∈ listNames samplePoisoned ∧
    stripParent "zz.txt" ∉ listNames (openArchive "test.arc" samplePoisoned.blocks) := by
  refine ⟨by decide, by decide⟩

/-- Witness for C8 (amended): sampleOne's TOC is coherent with its blocks,
    and reopening yields the same listing for the name ".txt" (the mangled
    print form of "a.txt"). -/
theorem C8_reopen_amended_witness :
    (∀ e ∈ sampleOne.arcTOC, e.1 ∈ nonEmptyNames sampleOne.blocks) ∧
    (∀ nm ∈ nonEmptyNames sampleOne.blocks, tocContains sampleOne.arcTOC nm = true) ∧
    (openArchive "test.arc" sampleOne.blocks).arcNumBlocks = sampleOne.blocks.length ∧
    (stripParent "a.txt" ∈ listNames (openArchive "test.arc" sampleOne.blocks)
      ↔ stripParent "a.txt" ∈ listNames sampleOne) :=
  ⟨by decide, by decide,
   (C8_reopen_amended sampleOne "test.arc" (by decide) (by decide)).1,
   (C8_reopen_amended sampleOne "test.arc" (by decide) (by decide)).2.2
     (stripParent "a.txt")⟩

